import Mathlib

/-!
A shallow embedding of the mett text editor (src/mett.c) in Lean 4,
together with theorems settling the specification claims.

Modelling conventions:
* `wchar_t` is modelled as `Char`; the NUL terminator is `Char.ofNat 0`.
* A `Line`'s fixed-capacity, calloc-zeroed character array is modelled as a
  `List Char` that is implicitly padded with NUL to the right: reading past
  the end of the list (`arrGet`) yields NUL, mirroring the zero-initialised
  region of the array.  The claims under consideration all assume contents
  stay within the fixed capacity, so the capacity bound itself is not
  tracked on the array.
* `memcpy` in mett always copies `wcslen(...)+1` wide characters to shift a
  tail; it is modelled with snapshot semantics (`memcpyA2` reads the source
  array as it was before the write), which is the shift behaviour the code
  relies on.
* The doubly linked line list with its `curline` pointer is modelled as a
  `List` of line arrays plus the index `cur` of the current line;
  `prev` exists iff `cur ≠ 0`, `next` exists iff `cur + 1 < lines.length`.
* Configuration constants from the (not included) config.h — `tab_width`,
  `auto_indent`, `max_cmd_repetition`, `default_linebuf_size` — and the
  window dimensions obtained from `getmaxyx` are passed as parameters.
-/

/-- The NUL wide character, the line terminator inside a line array. -/
def nulC : Char := Char.ofNat 0

/-- Read index `i` of a line array; past the tracked region the array is
calloc-zeroed, hence NUL. -/
def arrGet (d : List Char) (i : Nat) : Char := d.getD i nulC

/-- Write character `c` at index `i` of a line array, zero-extending the
tracked region if needed. -/
def arrWrite (d : List Char) (i : Nat) (c : Char) : List Char :=
  (d ++ List.replicate (i + 1 - d.length) nulC).set i c

/-- `wcslen` on a line array: length of the prefix before the first NUL. -/
def wcslenL (d : List Char) : Nat := (d.takeWhile (fun c => c ≠ nulC)).length

/-- The visible content of a line array: its `wcslen` prefix. -/
def contentOf (d : List Char) : List Char := d.takeWhile (fun c => c ≠ nulC)

/-- `memcpy(dst + a, src + b, n * sizeof(wchar_t))` with snapshot semantics:
position `i ∈ [a, a+n)` of the result reads `src[b + (i-a)]`, every other
position keeps `dst[i]`. -/
def memcpyA2 (dst src : List Char) (a b n : Nat) : List Char :=
  (List.range (max dst.length (a + n))).map (fun i =>
    if a ≤ i ∧ i < a + n then arrGet src (b + (i - a)) else arrGet dst i)

/-- `iswspace` restricted to the characters relevant here. -/
def iswspaceB (c : Char) : Bool :=
  c = ' ' || c = '\t' || c = '\n' || c = '\r' ||
  c = Char.ofNat 11 || c = Char.ofNat 12

/-- Marker enum from mett.c. -/
inductive Marker where
  | START
  | MIDDLE
  | END
deriving DecidableEq

/-- A buffer: its line store (list of line arrays plus index of the current
line), cursor fields and path.  `v0`/`v1` are omitted: `mselect` has an
empty body, so no operation ever reads or writes them.  The per-line
`length` field is omitted: it is written but never read. -/
structure Buffer where
  lines : List (List Char)
  cur : Nat
  x : Int
  y : Int
  starty : Int
  path : Option (List Char)
deriving DecidableEq

/-- The current line's array (`buf->curline->data`). -/
def curlineOf (b : Buffer) : List Char := b.lines.getD b.cur []

/-- `mnewbuf`: a calloc-zeroed buffer owning a single calloc-zeroed line.
(The registry prepend and the unused `linexoff` field are not modelled;
`mselect` is an empty function.) -/
def mnewbuf : Buffer :=
  { lines := [[]], cur := 0, x := 0, y := 0, starty := 0, path := none }

/-- Configuration constants (from config.h) and the `getmaxyx` dimensions of
the buffer window, threaded through the cursor/editing operations. -/
structure Env where
  tabWidth : Nat
  autoIndent : Bool
  row : Int
  col : Nat
deriving DecidableEq

/-- `mnumvislines`: visual rows needed for a line, `col ? (len+col-1)/col : 1`
with `len = wcslen(ln->data) + 4`. -/
def mnumvislines (col : Nat) (ln : List Char) : Nat :=
  let len := wcslenL ln + 4
  if col ≠ 0 then (len + col - 1) / col else 1

/-- One iteration of `mmove`'s upward loop body after the `prev` check:
step to `prev`, decrement the logical row, and scroll up by the new current
line's visual-row count when the row dropped below `starty`. -/
def upStep (env : Env) (b : Buffer) : Buffer :=
  if b.y - 1 < b.starty then
    { b with
      cur := b.cur - 1
      y := b.y - 1
      starty := b.starty - (mnumvislines env.col (b.lines.getD (b.cur - 1) []) : Int) }
  else { b with cur := b.cur - 1, y := b.y - 1 }

/-- One iteration of `mmove`'s downward loop body after the `next` check:
step to `next`, increment the logical row, and scroll down by the new
current line's visual-row count when `row - starty` reached the height. -/
def downStep (env : Env) (b : Buffer) : Buffer :=
  if b.y + 1 - b.starty ≥ env.row then
    { b with
      cur := b.cur + 1
      y := b.y + 1
      starty := b.starty + (mnumvislines env.col (b.lines.getD (b.cur + 1) []) : Int) }
  else { b with cur := b.cur + 1, y := b.y + 1 }

/-- The upward walk of `mmove` (`y < 0` branch): iterate `upStep` while a
`prev` line exists, breaking early at the top of the line store. -/
def walkUp (env : Env) : Nat → Buffer → Buffer
  | 0, b => b
  | n + 1, b => if b.cur ≠ 0 then walkUp env n (upStep env b) else b

/-- The downward walk of `mmove` (`y ≥ 0` branch): iterate `downStep` while
a `next` line exists, breaking early at the bottom of the line store. -/
def walkDown (env : Env) : Nat → Buffer → Buffer
  | 0, b => b
  | n + 1, b =>
    if b.cur + 1 < b.lines.length then walkDown env n (downStep env b) else b

/-- The final step of `mmove`: restrict the cursor column to the current
line's content, `x = max(min(x, len), 0)`. -/
def clampX (b : Buffer) : Buffer :=
  { b with x := max (min b.x (wcslenL (curlineOf b) : Int)) 0 }

/-- `mmove`: apply the horizontal delta, walk `|y|` lines up or down, then
clamp the column to `[0, wcslen(curline)]`. -/
def mmove (env : Env) (b : Buffer) (dx dy : Int) : Buffer :=
  clampX (if dy < 0 then walkUp env dy.natAbs { b with x := b.x + dx }
          else walkDown env dy.toNat { b with x := b.x + dx })

/-- The effect of `mjump` on the buffer it actually mutates.  The body of
`mjump` reads and writes `curbuf` (not its parameter); this function is that
body applied to `curbuf`. -/
def mjumpCur (b : Buffer) : Marker → Buffer
  | .START => { b with x := 0 }
  | .MIDDLE => { b with x := (wcslenL (curlineOf b) / 2 : Nat) }
  | .END => { b with x := max (wcslenL (curlineOf b) : Int) 0 }

/-- `mindent(ln, n)` on a fresh calloc-zeroed line: writes `n / tab_width`
tabs at indices `[0, tabs)`, then runs `for (; i < spaces; ++i)` — i.e. it
writes spaces at indices `[tabs, spaces)`, not `[tabs, tabs+spaces)` — and
returns `tabs + spaces`.  Returns the resulting array and the return value. -/
def mindent (tw : Nat) (n : Nat) : List Char × Nat :=
  let tabs := n / tw
  let spaces := n % tw
  let d1 := (List.range tabs).foldl (fun d i => arrWrite d i '\t') []
  let d2 := (List.range' tabs (spaces - tabs)).foldl (fun d i => arrWrite d i ' ') d1
  (d2, tabs + spaces)

/-- The auto-indent scan in `minsert`'s newline case: walk `x` from 0 while
`x < idx`, adding `tab_width` per tab and 1 per other whitespace character,
stopping at the first non-whitespace.  The first argument counts the
remaining columns `idx - x`, so the loop condition `x < idx` is the
pattern match on it. -/
def indentScanGo (tw : Nat) (d : List Char) : Nat → Nat → Nat → Nat
  | 0, _, mx => mx
  | k + 1, x, mx =>
    let c := arrGet d x
    if c = '\t' then indentScanGo tw d k (x + 1) (mx + tw)
    else if iswspaceB c then indentScanGo tw d k (x + 1) (mx + 1)
    else mx

/-- Leading-whitespace width of `d` up to column `idx`. -/
def indentScan (tw : Nat) (d : List Char) (idx : Nat) : Nat :=
  indentScanGo tw d idx 0 0

/-- Insert list element at an index (splice a fresh line after the current
one). -/
def insertAt (l : List (List Char)) (i : Nat) (a : List Char) : List (List Char) :=
  l.take i ++ a :: l.drop i

/-- The keys distinguished by `minsert`'s switch. -/
inductive Key where
  | backspace
  | del
  | enter
  | char (c : Char)
deriving DecidableEq

/-- `minsert(buf, key)`.  `cmdMode` is true when the process-wide mode is
`MODE_COMMAND`; in that case a newline dispatches the command interpreter
(modelled separately, it does not edit this buffer's lines) instead of
splitting the line.  The guard `!(ln = buf->curline)` corresponds to an
empty line store.  `minsert`'s internal `mjump(buf, …)` call acts on
`curbuf`; this model covers the reachable call pattern `buf == curbuf`. -/
def minsert (env : Env) (cmdMode : Bool) (b : Buffer) (k : Key) : Buffer :=
  if b.lines = [] then b
  else
    let ln := curlineOf b
    let idx := b.x.toNat
    let lenw := wcslenL ln + 1
    match k with
    | .backspace =>
      if b.x ≠ 0 then
        { b with lines := b.lines.set b.cur (memcpyA2 ln ln (idx - 1) idx lenw),
                 x := b.x - 1 }
      else if b.cur ≠ 0 then
        let prevLn := b.lines.getD (b.cur - 1) []
        let plen := wcslenL prevLn
        let b1 : Buffer :=
          { b with lines := b.lines.set (b.cur - 1) (memcpyA2 prevLn ln plen 0 lenw) }
        let b2 := mmove env b1 ((plen : Int) + b.x) (-1)
        { b2 with lines := b2.lines.eraseIdx b.cur }
      else b
    | .del =>
      { b with lines := b.lines.set b.cur (memcpyA2 ln ln idx (idx + 1) lenw) }
    | .enter =>
      if cmdMode then b
      else
        let mx := indentScan env.tabWidth ln idx
        let pre := if env.autoIndent then mindent env.tabWidth mx else ([], 0)
        let nl := memcpyA2 pre.1 ln pre.2 idx lenw
        let b1 : Buffer :=
          { b with lines := insertAt (b.lines.set b.cur (arrWrite ln idx nulC)) (b.cur + 1) nl }
        let b2 := mjumpCur b1 .START
        let b3 := mmove env b2 0 1
        { b3 with x := (pre.2 : Int) }
    | .char c =>
      { b with lines := b.lines.set b.cur (arrWrite (memcpyA2 ln ln (idx + 1) idx lenw) idx c),
               x := b.x + 1 }

/-- `mclearbuf`: free every line after the first, keep the first as current,
and terminate it at index 0 (junk beyond the terminator is kept, as in the
array). -/
def mclearbuf (b : Buffer) : Buffer :=
  match b.lines with
  | [] => b
  | f :: _ => { b with lines := [arrWrite f 0 nulC], cur := 0 }

/-- The bindable `freeln`: `next = ln->next ? ln->next : ln->prev`; if it
exists, make it current and free the current line (updating the head pointer
when the head was deleted, which the list model does implicitly). -/
def freeln (b : Buffer) : Buffer :=
  if b.cur + 1 < b.lines.length then
    { b with lines := b.lines.eraseIdx b.cur }
  else if b.cur ≠ 0 then
    { b with lines := b.lines.eraseIdx b.cur, cur := b.cur - 1 }
  else b

/-- The buffer registry together with the index of `curbuf`. -/
structure EState where
  bufs : List Buffer
  curIdx : Nat
deriving DecidableEq

/-- `mjump(buf, mark)` at registry level.  The body of the C function never
dereferences its `buf` parameter: every case reads and assigns
`curbuf->cursor.c.x` (and `curbuf->curline`), so only the buffer at
`curIdx` changes, whatever `argIdx` names. -/
def mjump (st : EState) (argIdx : Nat) (m : Marker) : EState :=
  { st with bufs := st.bufs.set st.curIdx (mjumpCur (st.bufs.getD st.curIdx mnewbuf) m) }

/-- The write loop of `save`: `fputws(ln->data, src); fputws(L"\n", src);`
for every line, given each line's visible content. -/
def saveText : List (List Char) → List Char
  | [] => []
  | l :: ls => l ++ '\n' :: saveText ls

/-- `save(ac)`: skipped (`none`) when neither an argument path nor a buffer
path exists; otherwise returns the destination path and the printed text.
(The optional pre-write backup copy is an external side effect on another
file and is not modelled.) -/
def save (argPath : Option (List Char)) (b : Buffer) : Option (List Char × List Char) :=
  if argPath = none ∧ b.path = none then none
  else
    let dst := match argPath with
      | some q => q
      | none => b.path.getD []
    some (dst, saveText (b.lines.map contentOf))

/-- `fgetws(buf, n, fp)` reading from a character stream: take at most
`n - 1` characters, stopping after (and including) a newline.  Returns the
record read and the rest of the stream.  The first component is empty
exactly when `fgetws` returns NULL (end of input). -/
def fgetwsTake : Nat → List Char → List Char × List Char
  | 0, s => ([], s)
  | _ + 1, [] => ([], [])
  | n + 1, c :: r =>
    if c = '\n' then ([c], r)
    else
      let p := fgetwsTake n r
      (c :: p.1, p.2)

/-- Storing one record into a fresh line: `wcsncpy` then
`ln->data[len-1] = 0` with `len = wcslen(linecnt)`, so the content is the
record truncated just before index `wcslen - 1`. -/
def procRec (r : List Char) : List Char := r.take (wcslenL r - 1)

/-- The read loop of `mreadbuf`, fuelled: each `fgetws` success consumes at
least one character of the stream, so fuel `s.length + 1` never runs out
before the real loop would stop. -/
def mreadRecsF (cap : Nat) : Nat → List Char → List (List Char)
  | 0, _ => []
  | fuel + 1, s =>
    if (fgetwsTake (cap - 1) s).1 = [] then []
    else procRec (fgetwsTake (cap - 1) s).1 ::
      mreadRecsF cap fuel (fgetwsTake (cap - 1) s).2

/-- Records produced by `mreadbuf`'s loop on stream `s` with line capacity
`cap` (`default_linebuf_size`). -/
def mreadRecs (cap : Nat) (s : List Char) : List (List Char) :=
  mreadRecsF cap (s.length + 1) s

/-- The line contents of a freshly loaded buffer: the loop fills one line
per record and, after each record, allocates one more empty line, so the
final line store is the records followed by one empty line (just the fresh
buffer's single empty line when the stream holds no record). -/
def mreadbufLines (cap : Nat) (s : List Char) : List (List Char) :=
  match mreadRecs cap s with
  | [] => [[]]
  | r :: rs => (r :: rs) ++ [[]]

/-- `mreadbuf(buf, path)` on a buffer fresh from `mnewbuf` (its only call
pattern).  `fs` maps a path spec to the readable stream behind it (`"-"`
standing for stdin); `none` means `fopen` fails.  On failure the buffer keeps
its single empty line, and in every case `buf->path` is set to a copy of the
requested name and 1 is returned. -/
def mreadbuf (cap : Nat) (fs : List Char → Option (List Char)) (b : Buffer)
    (path : List Char) : Buffer × Int :=
  match fs path with
  | none => ({ b with path := some path }, 1)
  | some content =>
    ({ b with lines := mreadbufLines cap content, path := some path }, 1)

/-- `wcstol(buf, &cmd, 10)`: accumulate decimal digits. -/
def digitsVal : List Char → Nat → Nat × List Char
  | [], acc => (acc, [])
  | c :: rest, acc =>
    if c.isDigit then digitsVal rest (10 * acc + (c.toNat - 48))
    else (acc, c :: rest)

/-- `wcstol` base 10: skip leading whitespace, an optional sign, then
digits; when no digit is converted the end pointer is the original string. -/
def wcstol10 (s : List Char) : Int × List Char :=
  let s1 := s.dropWhile (fun c => iswspaceB c)
  let signed : Bool × List Char :=
    match s1 with
    | '-' :: r => (true, r)
    | '+' :: r => (false, r)
    | _ => (false, s1)
  match signed.2 with
  | [] => (0, s)
  | c :: _ =>
    if c.isDigit then
      let p := digitsVal signed.2 0
      ((if signed.1 then -(p.1 : Int) else (p.1 : Int)), p.2)
    else (0, s)

/-- `findchr(buf, start, c)`: first index `≥ start` holding `c`, else -1. -/
def findchr (s : List Char) (start : Nat) (c : Char) : Int :=
  match (s.drop start).findIdx? (fun d => d = c) with
  | some i => (start + i : Nat)
  | none => -1

/-- `wcsncmp(a, b, n) == 0`: the strings agree on their first `n` code
units, the end of a list standing for the NUL terminator. -/
def wcsncmpZ : List Char → List Char → Nat → Bool
  | _, _, 0 => true
  | [], [], _ + 1 => true
  | [], _ :: _, _ + 1 => false
  | _ :: _, [], _ + 1 => false
  | x :: xs, y :: ys, n + 1 => x = y && wcsncmpZ xs ys n

/-- An Action Table entry as far as command matching goes: the optional
command name and the trigger key code. -/
structure ActionC where
  cmd : Option (List Char)
  key : Char
deriving DecidableEq

/-- `mrepeat(ac, n)`: the number of times `ac->fn` is invoked — the loop
`for (i = 0; i < min(n, max_cmd_repetition); ++i)`. -/
def mrepeatCount (maxRep n : Int) : Nat := (min n maxRep).toNat

/-- The match test of `mruncmd`'s table scan for one entry: the entry has a
command name and either the single-character token equals its key code, or
its command name agrees with the token on the token's length. -/
def entryMatches (a : ActionC) (cmd : List Char) (cmdlen : Nat) : Bool :=
  match a.cmd with
  | none => false
  | some ac => (cmdlen = 1 && a.key = arrGet cmd 0) || wcsncmpZ ac cmd cmdlen

/-- How many times `mruncmd(text)` invokes one table entry's operation:
parse the leading count (absent or zero ↦ 1), delimit the token at the
first space, and if the entry matches run it `mrepeat`-many times. -/
def mruncmdCount (maxRep : Int) (text : List Char) (a : ActionC) : Nat :=
  let p := wcstol10 text
  let cnt : Int := if p.1 = 0 then 1 else p.1
  let cmd := p.2
  let exlen := cmd.length
  let f := findchr cmd 0 ' '
  let cmdlen : Nat := if f < 0 then exlen else f.toNat
  if entryMatches a cmd cmdlen then mrepeatCount maxRep cnt else 0

/-- The buffer-mutating operations the claims quantify over: a key handed
to `minsert` in Insert mode, a `motion`, a `jump`, `mclearbuf`, and the
bindable `freeln`. -/
inductive Op where
  | key (k : Key)
  | move (dx dy : Int)
  | jumpOp (m : Marker)
  | clear
  | delLine
deriving DecidableEq

/-- One operation applied to the current buffer. -/
def stepOp (env : Env) (b : Buffer) : Op → Buffer
  | .key k => minsert env false b k
  | .move dx dy => mmove env b dx dy
  | .jumpOp m => mjumpCur b m
  | .clear => mclearbuf b
  | .delLine => freeln b

/-- A sequence of operations applied in order. -/
def applyOps (env : Env) (b : Buffer) : List Op → Buffer
  | [] => b
  | o :: os => applyOps env (stepOp env b o) os

/-- Configuration with tab width 4, auto-indent on, a tall unwrapped
window. -/
def env4 : Env := { tabWidth := 4, autoIndent := true, row := 100, col := 80 }

/-- A buffer whose current line is `"\t  ab"` (leading whitespace of width
6) with the cursor at column 3, just after the indentation. -/
def bC2 : Buffer :=
  { lines := [['\t', ' ', ' ', 'a', 'b']], cur := 0, x := 3, y := 0,
    starty := 0, path := none }

/-- Typing the line `"\t  ab"` into a fresh buffer, moving two columns
left, then pressing Enter. -/
def c3ops : List Op :=
  [.key (.char '\t'), .key (.char ' '), .key (.char ' '), .key (.char 'a'),
   .key (.char 'b'), .move (-2) 0, .key .enter]

/-- A one-row viewport four columns wide: every nonempty line wraps. -/
def envC5 : Env := { tabWidth := 4, autoIndent := false, row := 1, col := 4 }

/-- Two one-character lines, cursor on the first, scrolled to the top. -/
def bC5 : Buffer :=
  { lines := [['a'], ['b']], cur := 0, x := 0, y := 0, starty := 0, path := none }

/-- A registry with two buffers: the current one (`"q"`, column 1) and a
second one (`"xy"`, column 2). -/
def stC6 : EState :=
  { bufs := [{ lines := [['q']], cur := 0, x := 1, y := 0, starty := 0, path := none },
             { lines := [['x', 'y']], cur := 0, x := 2, y := 0, starty := 0, path := none }],
    curIdx := 0 }


/-- Helper: `getD` at an in-range index is a member of the list. -/
theorem getD_mem_of_lt {α : Type} :
    ∀ (l : List α) (i : Nat) (d : α), i < l.length → l.getD i d ∈ l := by
  intro l
  induction l with
  | nil => intro i d h; simp at h
  | cons a t ih =>
    intro i d h
    cases i with
    | zero => simp
    | succ j =>
      simp only [List.getD_cons_succ]
      exact List.mem_cons_of_mem a (ih j d (by simpa using h))

/-- Claim C10: for every requested repetition count `n ≥ 1` (and a positive
configured maximum), `mrepeat` invokes the action's operation exactly
`min(n, max_cmd_repetition)` times. -/
theorem c10_repeat_cap (maxRep n : Int) (hn : 1 ≤ n) (hm : 1 ≤ maxRep) :
    (mrepeatCount maxRep n : Int) = min n maxRep := by
  simp only [mrepeatCount]
  omega

/-- Witness for C10 at `n = 5`, `max_cmd_repetition = 3`. -/
theorem c10_repeat_cap_witness : (mrepeatCount 3 5 : Int) = min 5 3 :=
  c10_repeat_cap 3 5 (by decide) (by decide)

/-- Claim C9: Backspace at column 0 on the first line of the buffer is a
no-op — the lines, their contents, and the cursor are unchanged. -/
theorem c9_backspace_noop (env : Env) (cmdMode : Bool) (b : Buffer)
    (hx : b.x = 0) (hcur : b.cur = 0) :
    minsert env cmdMode b .backspace = b := by
  unfold minsert
  by_cases hl : b.lines = [] <;> simp [hl, hx, hcur]

/-- Witness for C9 on a concrete buffer. -/
theorem c9_backspace_noop_witness :
    minsert env4 false
      { lines := [['h', 'i'], ['y', 'o']], cur := 0, x := 0, y := 0,
        starty := 0, path := none } .backspace =
      { lines := [['h', 'i'], ['y', 'o']], cur := 0, x := 0, y := 0,
        starty := 0, path := none } :=
  c9_backspace_noop env4 false _ rfl rfl

/-- Counterexample to claim C1 as stated: saving a buffer of one line
`"a"` and reloading the file does not yield one line — `mreadbuf` appends a
fresh empty Line after the last newline-terminated record, so the reloaded
buffer has two lines. -/
theorem c1_roundtrip_counterexample :
    mreadbufLines 8 (saveText [['a']]) ≠ [['a']] := by decide

/-- Claim C2 evaluated at its failing input (code bug): with tab width 4
and leading-whitespace width 6, `mindent`'s second loop `for (; i < spaces;
++i)` starts at `i = tabs` but is bounded by `spaces` instead of
`tabs + spaces`.  Splitting the line `"\t  ab"` at column 3 therefore
produces a new line whose visible content is `"\t "` — a tab and ONE space,
truncated by a leftover NUL at index 2 — instead of the claimed tab plus
two spaces followed by the tail `"ab"`, while the cursor column is still
set to the full indent count 3. -/
theorem c2_autoindent_eval :
    contentOf ((minsert env4 false bC2 .enter).lines.getD 1 []) = ['\t', ' '] ∧
    (minsert env4 false bC2 .enter).lines.getD 1 [] =
      ['\t', ' ', nulC, 'a', 'b', nulC, nulC, nulC, nulC] ∧
    (minsert env4 false bC2 .enter).x = 3 ∧
    mindent 4 6 = (['\t', ' '], 3) := by decide

/-- Claim C3 evaluated at its failing input (code bug): typing
`"\t  ab"` into a fresh buffer, moving two columns left and pressing Enter
(auto-indent on, tab width 4) leaves the cursor at column 3 on the new
current line whose content length is 2 — the column invariant
`0 ≤ x ≤ length(curline)` is violated, through the same `mindent` slip as
in C2. -/
theorem c3_column_invariant_eval :
    (applyOps env4 mnewbuf c3ops).x = 3 ∧
    wcslenL (curlineOf (applyOps env4 mnewbuf c3ops)) = 2 ∧
    ¬ ((applyOps env4 mnewbuf c3ops).x ≤
        (wcslenL (curlineOf (applyOps env4 mnewbuf c3ops)) : Int)) := by decide

/-- Counterexample to claim C5 as stated: in a one-row viewport four
columns wide, moving down one line from the top of a two-line buffer
scrolls `starty` by the wrapped line's visual-row count (2), overshooting
the cursor row: afterwards `y < starty`. -/
theorem c5_scroll_counterexample :
    ¬ ((mmove envC5 bC5 0 1).starty ≤ (mmove envC5 bC5 0 1).y) := by decide

/-- Counterexample to claim C6 as stated: `mjump` called with a buffer
that is not the current one (buffer 1 of `stC6`, whose column is 2) and
marker Start leaves that buffer's column at 2 — the function body mutates
`curbuf`, ignoring its argument. -/
theorem c6_jump_counterexample :
    ((mjump stC6 1 .START).bufs.getD 1 mnewbuf).x ≠ 0 := by decide

/-- Claim C8: loading a path that cannot be opened yields a buffer whose
path is the requested name and whose content is a single empty line, with
no error reported (return value 1); a later save then writes that path
(producing the single terminator the empty line serialises to). -/
theorem c8_missing_path (cap : Nat) (fs : List Char → Option (List Char))
    (p : List Char) (h : fs p = none) :
    mreadbuf cap fs mnewbuf p = ({ mnewbuf with path := some p }, 1) ∧
    save none (mreadbuf cap fs mnewbuf p).1 = some (p, ['\n']) := by
  simp [mreadbuf, h, save, mnewbuf, saveText, contentOf]

/-- Witness for C8 at a concrete unopenable path. -/
theorem c8_missing_path_witness :
    mreadbuf 1024 (fun _ => none) mnewbuf ['f'] =
      ({ mnewbuf with path := some ['f'] }, 1) ∧
    save none (mreadbuf 1024 (fun _ => none) mnewbuf ['f']).1 =
      some (['f'], ['\n']) :=
  c8_missing_path 1024 (fun _ => none) ['f'] rfl

/-- Claim C4: the command interpreter parses a leading decimal count
(defaulting to 1 when absent or zero): for any table entry bound to the
command name `"dd"` (and a configured maximum of at least 3), the command
text `"3dd"` invokes its operation exactly 3 times, `"dd"` exactly once,
and `"0dd"` exactly once. -/
theorem c4_repetition_parse (maxRep : Int) (a : ActionC)
    (hmax : 3 ≤ maxRep) (hcmd : a.cmd = some ['d', 'd']) :
    mruncmdCount maxRep ['3', 'd', 'd'] a = 3 ∧
    mruncmdCount maxRep ['d', 'd'] a = 1 ∧
    mruncmdCount maxRep ['0', 'd', 'd'] a = 1 := by
  obtain ⟨ac, key⟩ := a
  simp only at hcmd
  subst hcmd
  refine ⟨?_, ?_, ?_⟩
  · show mrepeatCount maxRep 3 = 3
    simp only [mrepeatCount]
    omega
  · show mrepeatCount maxRep 1 = 1
    simp only [mrepeatCount]
    omega
  · show mrepeatCount maxRep 1 = 1
    simp only [mrepeatCount]
    omega

/-- Witness for C4 with a concrete entry and maximum. -/
theorem c4_repetition_parse_witness :
    mruncmdCount 16 ['3', 'd', 'd'] ⟨some ['d', 'd'], 'd'⟩ = 3 ∧
    mruncmdCount 16 ['d', 'd'] ⟨some ['d', 'd'], 'd'⟩ = 1 ∧
    mruncmdCount 16 ['0', 'd', 'd'] ⟨some ['d', 'd'], 'd'⟩ = 1 :=
  c4_repetition_parse 16 ⟨some ['d', 'd'], 'd'⟩ (by decide) rfl

/-- Helper: `getD` after `set` at the same in-range index returns the new
element. -/
theorem getD_set_self {α : Type} :
    ∀ (l : List α) (i : Nat) (a d : α), i < l.length →
      (l.set i a).getD i d = a := by
  intro l
  induction l with
  | nil => intro i a d h; simp at h
  | cons hd t ih =>
    intro i a d h
    cases i with
    | zero => simp
    | succ j => simpa using ih j a d (by simpa using h)

/-- Claim C6 amended: `mjump(buffer, marker)` sets the CURRENT buffer's
cursor column — computed from the current buffer's current line — to 0 for
Start, `length/2` for Middle and `length` for End, regardless of which
buffer is passed as the argument; the claimed behaviour therefore holds
exactly when the passed buffer is the current one. -/
theorem c6_jump_amended (st : EState) (argIdx : Nat)
    (hidx : st.curIdx < st.bufs.length) :
    ((mjump st argIdx .START).bufs.getD st.curIdx mnewbuf).x = 0 ∧
    ((mjump st argIdx .MIDDLE).bufs.getD st.curIdx mnewbuf).x =
      (wcslenL (curlineOf (st.bufs.getD st.curIdx mnewbuf)) / 2 : Nat) ∧
    ((mjump st argIdx .END).bufs.getD st.curIdx mnewbuf).x =
      (wcslenL (curlineOf (st.bufs.getD st.curIdx mnewbuf)) : Int) := by
  have h := fun m =>
    getD_set_self st.bufs st.curIdx
      (mjumpCur (st.bufs.getD st.curIdx mnewbuf) m) mnewbuf hidx
  unfold mjump
  refine ⟨?_, ?_, ?_⟩
  · rw [h .START]
    rfl
  · rw [h .MIDDLE]
    rfl
  · rw [h .END]
    show max (wcslenL (curlineOf (st.bufs.getD st.curIdx mnewbuf)) : Int) 0 = _
    omega

/-- Witness for C6 amended on `stC6` (argument index 5 does not even name a
buffer; the current buffer's column is set all the same). -/
theorem c6_jump_amended_witness :
    ((mjump stC6 5 .START).bufs.getD stC6.curIdx mnewbuf).x = 0 ∧
    ((mjump stC6 5 .MIDDLE).bufs.getD stC6.curIdx mnewbuf).x =
      (wcslenL (curlineOf (stC6.bufs.getD stC6.curIdx mnewbuf)) / 2 : Nat) ∧
    ((mjump stC6 5 .END).bufs.getD stC6.curIdx mnewbuf).x =
      (wcslenL (curlineOf (stC6.bufs.getD stC6.curIdx mnewbuf)) : Int) :=
  c6_jump_amended stC6 5 (by decide)

/-- Helper: `upStep` only moves `cur`, `y` and `starty`. -/
theorem upStep_lines (env : Env) (b : Buffer) : (upStep env b).lines = b.lines := by
  unfold upStep
  split <;> rfl

/-- Helper: `downStep` only moves `cur`, `y` and `starty`. -/
theorem downStep_lines (env : Env) (b : Buffer) : (downStep env b).lines = b.lines := by
  unfold downStep
  split <;> rfl

/-- Helper: one upward step preserves the scroll window when the newly
current line occupies a single visual row. -/
theorem upStep_scroll (env : Env) (hrow : 1 ≤ env.row) (b : Buffer)
    (hvis1 : mnumvislines env.col (b.lines.getD (b.cur - 1) []) = 1)
    (hlo : b.starty ≤ b.y) (hhi : b.y < b.starty + env.row) :
    (upStep env b).cur = b.cur - 1 ∧
    (upStep env b).starty ≤ (upStep env b).y ∧
    (upStep env b).y < (upStep env b).starty + env.row := by
  unfold upStep
  by_cases hs : b.y - 1 < b.starty
  · rw [if_pos hs, hvis1]
    refine ⟨rfl, ?_, ?_⟩ <;> dsimp <;> omega
  · rw [if_neg hs]
    refine ⟨rfl, ?_, ?_⟩ <;> dsimp <;> omega

/-- Helper: one downward step preserves the scroll window when the newly
current line occupies a single visual row. -/
theorem downStep_scroll (env : Env) (hrow : 1 ≤ env.row) (b : Buffer)
    (hvis1 : mnumvislines env.col (b.lines.getD (b.cur + 1) []) = 1)
    (hlo : b.starty ≤ b.y) (hhi : b.y < b.starty + env.row) :
    (downStep env b).cur = b.cur + 1 ∧
    (downStep env b).starty ≤ (downStep env b).y ∧
    (downStep env b).y < (downStep env b).starty + env.row := by
  unfold downStep
  by_cases hs : b.y + 1 - b.starty ≥ env.row
  · rw [if_pos hs, hvis1]
    refine ⟨rfl, ?_, ?_⟩ <;> dsimp <;> omega
  · rw [if_neg hs]
    refine ⟨rfl, ?_, ?_⟩ <;> dsimp <;> omega

/-- Helper: the upward walk of `mmove` keeps the line store, a valid
current index, and the scroll window, provided no line wraps. -/
theorem walkUp_scroll (env : Env) (hrow : 1 ≤ env.row) :
    ∀ (n : Nat) (b : Buffer),
      (∀ l ∈ b.lines, mnumvislines env.col l = 1) →
      b.cur < b.lines.length →
      b.starty ≤ b.y → b.y < b.starty + env.row →
      (walkUp env n b).lines = b.lines ∧
      (walkUp env n b).cur < b.lines.length ∧
      (walkUp env n b).starty ≤ (walkUp env n b).y ∧
      (walkUp env n b).y < (walkUp env n b).starty + env.row := by
  intro n
  induction n with
  | zero => intro b _ h2 h3 h4; exact ⟨rfl, h2, h3, h4⟩
  | succ m ih =>
    intro b hvis hcur hlo hhi
    simp only [walkUp]
    by_cases hc : b.cur ≠ 0
    · rw [if_pos hc]
      have hvis1 : mnumvislines env.col (b.lines.getD (b.cur - 1) []) = 1 :=
        hvis _ (getD_mem_of_lt _ _ _ (by omega))
      obtain ⟨hcur', hlo', hhi'⟩ := upStep_scroll env hrow b hvis1 hlo hhi
      have hl := upStep_lines env b
      obtain ⟨il, ic, i1, i2⟩ := ih (upStep env b)
        (by rw [hl]; exact hvis) (by rw [hl, hcur']; omega) hlo' hhi'
      exact ⟨by rw [il, hl], by rw [← hl]; exact ic, i1, i2⟩
    · rw [if_neg hc]
      exact ⟨rfl, hcur, hlo, hhi⟩

/-- Helper: the downward walk of `mmove` keeps the line store, a valid
current index, and the scroll window, provided no line wraps. -/
theorem walkDown_scroll (env : Env) (hrow : 1 ≤ env.row) :
    ∀ (n : Nat) (b : Buffer),
      (∀ l ∈ b.lines, mnumvislines env.col l = 1) →
      b.cur < b.lines.length →
      b.starty ≤ b.y → b.y < b.starty + env.row →
      (walkDown env n b).lines = b.lines ∧
      (walkDown env n b).cur < b.lines.length ∧
      (walkDown env n b).starty ≤ (walkDown env n b).y ∧
      (walkDown env n b).y < (walkDown env n b).starty + env.row := by
  intro n
  induction n with
  | zero => intro b _ h2 h3 h4; exact ⟨rfl, h2, h3, h4⟩
  | succ m ih =>
    intro b hvis hcur hlo hhi
    simp only [walkDown]
    by_cases hc : b.cur + 1 < b.lines.length
    · rw [if_pos hc]
      have hvis1 : mnumvislines env.col (b.lines.getD (b.cur + 1) []) = 1 :=
        hvis _ (getD_mem_of_lt _ _ _ hc)
      obtain ⟨hcur', hlo', hhi'⟩ := downStep_scroll env hrow b hvis1 hlo hhi
      have hl := downStep_lines env b
      obtain ⟨il, ic, i1, i2⟩ := ih (downStep env b)
        (by rw [hl]; exact hvis) (by rw [hl, hcur']; omega) hlo' hhi'
      exact ⟨by rw [il, hl], by rw [← hl]; exact ic, i1, i2⟩
    · rw [if_neg hc]
      exact ⟨rfl, hcur, hlo, hhi⟩

/-- Claim C5 amended: after any `mmove` the current line's logical row lies
within `[starty, starty + viewportHeight)`, provided the invariant held
before the move, the viewport height is positive, and every line of the
buffer occupies exactly one visual row (no wrapping).  When a line wraps to
`k > 1` visual rows the scroll adjustment overshoots by `k - 1`, as the
counterexample shows. -/
theorem c5_scroll_amended (env : Env) (b : Buffer) (dx dy : Int)
    (hrow : 1 ≤ env.row)
    (hvis : ∀ l ∈ b.lines, mnumvislines env.col l = 1)
    (hcur : b.cur < b.lines.length)
    (hlo : b.starty ≤ b.y) (hhi : b.y < b.starty + env.row) :
    (mmove env b dx dy).starty ≤ (mmove env b dx dy).y ∧
    (mmove env b dx dy).y < (mmove env b dx dy).starty + env.row := by
  unfold mmove clampX
  by_cases hd : dy < 0
  · rw [if_pos hd]
    obtain ⟨_, _, h1, h2⟩ := walkUp_scroll env hrow dy.natAbs
      { b with x := b.x + dx } hvis hcur hlo hhi
    exact ⟨h1, h2⟩
  · rw [if_neg hd]
    obtain ⟨_, _, h1, h2⟩ := walkDown_scroll env hrow dy.toNat
      { b with x := b.x + dx } hvis hcur hlo hhi
    exact ⟨h1, h2⟩

/-- Witness for C5 amended: an unbounded-width window (`col = 0`, every
line one visual row) of height 2, moving down one line. -/
theorem c5_scroll_amended_witness :
    (mmove { tabWidth := 4, autoIndent := false, row := 2, col := 0 } bC5 0 1).starty ≤
      (mmove { tabWidth := 4, autoIndent := false, row := 2, col := 0 } bC5 0 1).y ∧
    (mmove { tabWidth := 4, autoIndent := false, row := 2, col := 0 } bC5 0 1).y <
      (mmove { tabWidth := 4, autoIndent := false, row := 2, col := 0 } bC5 0 1).starty + 2 :=
  c5_scroll_amended { tabWidth := 4, autoIndent := false, row := 2, col := 0 }
    bC5 0 1 (by decide) (by decide) (by decide) (by decide) (by decide)

/-- Helper: the upward walk never touches the line store. -/
theorem walkUp_lines (env : Env) :
    ∀ (n : Nat) (b : Buffer), (walkUp env n b).lines = b.lines := by
  intro n
  induction n with
  | zero => intro b; rfl
  | succ m ih =>
    intro b
    simp only [walkUp]
    by_cases hc : b.cur ≠ 0
    · rw [if_pos hc, ih, upStep_lines]
    · rw [if_neg hc]

/-- Helper: the downward walk never touches the line store. -/
theorem walkDown_lines (env : Env) :
    ∀ (n : Nat) (b : Buffer), (walkDown env n b).lines = b.lines := by
  intro n
  induction n with
  | zero => intro b; rfl
  | succ m ih =>
    intro b
    simp only [walkDown]
    by_cases hc : b.cur + 1 < b.lines.length
    · rw [if_pos hc, ih, downStep_lines]
    · rw [if_neg hc]

/-- Helper: `mmove` never touches the line store. -/
theorem mmove_lines (env : Env) (b : Buffer) (dx dy : Int) :
    (mmove env b dx dy).lines = b.lines := by
  unfold mmove clampX
  by_cases hd : dy < 0
  · rw [if_pos hd]
    exact walkUp_lines env dy.natAbs { b with x := b.x + dx }
  · rw [if_neg hd]
    exact walkDown_lines env dy.toNat { b with x := b.x + dx }

/-- Helper: `set` keeps a list nonempty. -/
theorem set_ne_nil {α : Type} (l : List α) (i : Nat) (a : α) (hl : l ≠ []) :
    l.set i a ≠ [] := by
  cases l with
  | nil => exact absurd rfl hl
  | cons hd t => cases i <;> simp

/-- Helper: erasing at a positive index keeps a nonempty list nonempty. -/
theorem eraseIdx_ne_nil_pos {α : Type} (l : List α) (i : Nat)
    (hl : l ≠ []) (hi : i ≠ 0) : l.eraseIdx i ≠ [] := by
  cases l with
  | nil => exact absurd rfl hl
  | cons hd t =>
    cases i with
    | zero => exact absurd rfl hi
    | succ j => simp

/-- Helper: erasing one element of a list of length at least two leaves a
nonempty list. -/
theorem eraseIdx_ne_nil_of_lt {α : Type} (l : List α) (i : Nat)
    (h : i + 1 < l.length) : l.eraseIdx i ≠ [] := by
  cases l with
  | nil => simp at h
  | cons hd t =>
    cases i with
    | zero =>
      simp only [List.eraseIdx]
      intro he
      rw [he] at h
      simp at h
    | succ j => simp

/-- Helper: splicing a line into the store keeps it nonempty. -/
theorem insertAt_ne_nil (l : List (List Char)) (i : Nat) (a : List Char) :
    insertAt l i a ≠ [] := by
  simp [insertAt]

/-- Helper: every modelled operation keeps the line store nonempty. -/
theorem stepOp_ne_nil (env : Env) (b : Buffer) (o : Op) (hb : b.lines ≠ []) :
    (stepOp env b o).lines ≠ [] := by
  cases o with
  | key k =>
    show (minsert env false b k).lines ≠ []
    unfold minsert
    rw [if_neg hb]
    cases k with
    | backspace =>
      by_cases hx : b.x ≠ 0
      · simp only [if_pos hx]
        exact set_ne_nil _ _ _ hb
      · simp only [if_neg hx]
        by_cases hc : b.cur ≠ 0
        · simp only [if_pos hc]
          apply eraseIdx_ne_nil_pos _ _ _ hc
          rw [mmove_lines]
          exact set_ne_nil _ _ _ hb
        · simp only [if_neg hc]
          exact hb
    | del => exact set_ne_nil _ _ _ hb
    | enter =>
      dsimp only
      rw [mmove_lines]
      exact insertAt_ne_nil _ _ _
    | char c => exact set_ne_nil _ _ _ hb
  | move dx dy =>
    show (mmove env b dx dy).lines ≠ []
    rw [mmove_lines]
    exact hb
  | jumpOp m => cases m <;> exact hb
  | clear =>
    show (mclearbuf b).lines ≠ []
    unfold mclearbuf
    cases hl : b.lines with
    | nil => exact absurd hl hb
    | cons f t => simp
  | delLine =>
    show (freeln b).lines ≠ []
    unfold freeln
    by_cases h1 : b.cur + 1 < b.lines.length
    · rw [if_pos h1]
      exact eraseIdx_ne_nil_of_lt _ _ h1
    · rw [if_neg h1]
      by_cases h2 : b.cur ≠ 0
      · rw [if_pos h2]
        exact eraseIdx_ne_nil_pos _ _ hb h2
      · rw [if_neg h2]
        exact hb

/-- Helper: any sequence of operations keeps the line store nonempty. -/
theorem applyOps_ne_nil (env : Env) :
    ∀ (ops : List Op) (b : Buffer), b.lines ≠ [] →
      (applyOps env b ops).lines ≠ [] := by
  intro ops
  induction ops with
  | nil => intro b hb; exact hb
  | cons o os ih => intro b hb; exact ih (stepOp env b o) (stepOp_ne_nil env b o hb)

/-- Claim C7: every buffer holds at least one Line at all times — a fresh
buffer has one line, and no sequence of insert/delete/move/jump/clear/
line-deletion operations ever empties the line store (clear keeps the first
line; deleting the only line is a no-op; the backspace join only fires when
a previous line exists). -/
theorem c7_nonempty_lines (env : Env) (ops : List Op) :
    (applyOps env mnewbuf ops).lines ≠ [] :=
  applyOps_ne_nil env ops mnewbuf (by simp [mnewbuf])

/-- Helper: `wcslen` of a NUL-free array is its full length. -/
theorem wcslenL_no_nul : ∀ (l : List Char), nulC ∉ l → wcslenL l = l.length := by
  intro l
  induction l with
  | nil => intro _; rfl
  | cons a t ih =>
    intro h
    have ha : a ≠ nulC := fun e => h (by simp [e])
    have ht : nulC ∉ t := fun m => h (List.mem_cons_of_mem a m)
    simp [wcslenL, List.takeWhile_cons, ha]
    simpa [wcslenL] using ih ht

/-- Helper: storing a newline-terminated record and truncating its last
code unit recovers the record's payload. -/
theorem procRec_newline (l : List Char) (h : nulC ∉ l) :
    procRec (l ++ ['\n']) = l := by
  unfold procRec
  have hn : nulC ∉ l ++ ['\n'] := by
    intro m
    rcases List.mem_append.mp m with m1 | m2
    · exact h m1
    · simp at m2
      exact absurd m2.symm (by decide)
  rw [wcslenL_no_nul _ hn]
  simp

/-- Helper: `fgetws` on a stream starting with a newline-terminated record
that fits the capacity reads exactly that record. -/
theorem fgetws_newline :
    ∀ (l : List Char) (n : Nat) (rest : List Char), '\n' ∉ l →
      l.length + 1 ≤ n → fgetwsTake n (l ++ '\n' :: rest) = (l ++ ['\n'], rest) := by
  intro l
  induction l with
  | nil =>
    intro n rest _ hn
    obtain ⟨m, rfl⟩ : ∃ m, n = m + 1 := ⟨n - 1, by omega⟩
    simp [fgetwsTake]
  | cons a t ih =>
    intro n rest hmem hn
    obtain ⟨m, rfl⟩ : ∃ m, n = m + 1 := ⟨n - 1, by omega⟩
    have ha : ¬(a = '\n') := fun e => hmem (by simp [e])
    simp only [List.cons_append, fgetwsTake, List.append_eq]
    rw [if_neg ha, ih m rest (fun hm => hmem (List.mem_cons_of_mem a hm))
      (by simp at hn; omega)]

/-- Helper: `fgetws` at end of stream reads nothing. -/
theorem fgetws_nil (n : Nat) : fgetwsTake n [] = ([], []) := by
  cases n <;> rfl

/-- Helper: the read loop inverts the write loop given enough fuel: every
saved line is NUL-free, newline-free and fits the record capacity. -/
theorem mreadRecsF_saveText (cap : Nat) :
    ∀ (lines : List (List Char)) (fuel : Nat),
      (∀ l ∈ lines, '\n' ∉ l ∧ nulC ∉ l ∧ l.length + 2 ≤ cap) →
      lines.length + 1 ≤ fuel →
      mreadRecsF cap fuel (saveText lines) = lines := by
  intro lines
  induction lines with
  | nil =>
    intro fuel _ hf
    obtain ⟨m, rfl⟩ : ∃ m, fuel = m + 1 := ⟨fuel - 1, by omega⟩
    simp [saveText, mreadRecsF, fgetws_nil]
  | cons l ls ih =>
    intro fuel hall hf
    obtain ⟨m, rfl⟩ : ∃ m, fuel = m + 1 := ⟨fuel - 1, by omega⟩
    obtain ⟨h1, h2, h3⟩ := hall l (List.mem_cons_self _ _)
    simp only [saveText, mreadRecsF]
    rw [fgetws_newline l (cap - 1) (saveText ls) h1 (by omega)]
    dsimp only
    rw [if_neg (by simp), procRec_newline l h2,
      ih m (fun x hx => hall x (List.mem_cons_of_mem _ hx)) (by simp at hf; omega)]

/-- Helper: the serialised text is at least one character per line. -/
theorem saveText_length : ∀ (lines : List (List Char)),
    lines.length ≤ (saveText lines).length := by
  intro lines
  induction lines with
  | nil => exact Nat.le_refl 0
  | cons l ls ih => simp [saveText]; omega

/-- Claim C1 amended: saving a buffer of N lines writes each line's content
followed by exactly one newline terminator (including after the last line),
and loading the file back creates one Line per newline-terminated record
with the terminator truncated — but the loader allocates one further empty
Line after the last record, so the reloaded buffer holds N+1 lines: the
original N contents followed by one empty line.  (Each line must be
newline- and NUL-free and fit the fixed record capacity, i.e.
`length + 2 ≤ default_linebuf_size`.) -/
theorem c1_roundtrip_amended (cap : Nat) (lines : List (List Char))
    (h : ∀ l ∈ lines, '\n' ∉ l ∧ nulC ∉ l ∧ l.length + 2 ≤ cap) :
    mreadbufLines cap (saveText lines) = lines ++ [[]] := by
  unfold mreadbufLines mreadRecs
  rw [mreadRecsF_saveText cap lines ((saveText lines).length + 1) h
    (by have := saveText_length lines; omega)]
  cases lines <;> rfl

/-- Witness for C1 amended: the one-line buffer `["a"]` reloads as
`["a", ""]`. -/
theorem c1_roundtrip_amended_witness :
    mreadbufLines 8 (saveText [['a']]) = [['a']] ++ [[]] :=
  c1_roundtrip_amended 8 [['a']] (by decide)
